import Mathlib

/-!
Verification of the animation codec / container pipeline of the
Focus_Bot_Desktop_Pet repository.

The definitions below are shallow embeddings of the Python sources
(`video_to_flash.py`, `convert_to_spiffs.py`, `Frame Viewer.py`,
`Frame Grouper 2.py`) and of the C decompressor that
`video_to_flash.py` emits as a string into every generated header.
Bytes are modelled as `Nat` (with explicit `% 256` where the source
casts to `uint8`), byte buffers as `List Nat`, and fallible code as
`Except Err`.
-/

namespace FocusBot

set_option maxRecDepth 40000

/-- Error kinds.  The first three model the failures the Python / C code can
actually produce (an unhandled `IndexError`, a `ZeroDivisionError`, a
`struct.error` from `struct.pack`).  The remaining constructors are the
error vocabulary of the specification (`MalformedRun`, `LengthMismatch`,
`EmptyInput`, `BufferSizeMismatch`, `IndexOutOfRange`), included so that
claims naming them can be stated and settled against the code. -/
inductive Err where
  | indexError
  | zeroDivisionError
  | structError
  | malformedRun
  | lengthMismatch
  | emptyInput
  | bufferSizeMismatch
  | indexOutOfRange
deriving DecidableEq

/-! ## RLE codec (`video_to_flash.py`, `rle_compress`) -/

/-- Loop body of `rle_compress`: `rest` is the not-yet-scanned input,
`cur` the Python `current_byte`, `cnt` the Python `count`.  The loop
extends the current run while `data[i] == current_byte and count < 255`,
otherwise flushes `(count, value)`; the final run is flushed after the
loop. -/
def rle_aux : List Nat → Nat → Nat → List Nat
  | [], cur, cnt => [cnt, cur]
  | d :: rest, cur, cnt =>
    if d = cur ∧ cnt < 255 then rle_aux rest cur (cnt + 1)
    else cnt :: cur :: rle_aux rest d 1

/-- `rle_compress(data)` from `video_to_flash.py`: empty input yields `[]`,
otherwise the greedy run-length scan starting at `current_byte = data[0]`,
`count = 1`.  The final `np.array(compressed, dtype=np.uint8)` cast is the
`% 256` map. -/
def rle_compress (data : List Nat) : List Nat :=
  match data with
  | [] => []
  | d :: rest => (rle_aux rest d 1).map (fun x => x % 256)

/-- The RLE decompressor that `generate_header` writes into every generated
header file (`void name_decompress(const uint8_t* compressed, int
compressed_size, uint8_t* output)`): for `i = 0, 2, 4, ...` below
`compressed_size` it reads `count = compressed[i]`, `value =
compressed[i+1]` and appends `count` copies of `value`.  On odd-length
input the final iteration reads `compressed[i+1]` one past the end of the
buffer; that out-of-bounds read is modelled as `Err.indexError`. -/
def c_decompress : List Nat → Except Err (List Nat)
  | [] => .ok []
  | [_] => .error .indexError
  | cnt :: v :: rest => (c_decompress rest).map (fun out => List.replicate cnt v ++ out)

/-- Total of the run counts (the entries at even offsets) of a compressed
buffer. -/
def sumCounts : List Nat → Nat
  | cnt :: _ :: rest => cnt + sumCounts rest
  | _ => 0

/-- `goodRuns c` holds when `c` is a sequence of adjacent `(count, value)`
pairs whose counts all lie in `[1, 255]`. -/
def goodRuns : List Nat → Bool
  | [] => true
  | [_] => false
  | cnt :: _ :: rest => decide (1 ≤ cnt) && decide (cnt ≤ 255) && goodRuns rest

/-- Two-step list induction, matching the pair structure of the codec. -/
lemma two_step (P : List Nat → Prop) (h0 : P []) (h1 : ∀ a, P [a])
    (h2 : ∀ a b l, P l → P (a :: b :: l)) : ∀ l, P l := by
  have H : ∀ n l, List.length l ≤ n → P l := by
    intro n
    induction n with
    | zero =>
      intro l hl
      cases l with
      | nil => exact h0
      | cons a t => simp at hl
    | succ n ih =>
      intro l hl
      cases l with
      | nil => exact h0
      | cons a t =>
        cases t with
        | nil => exact h1 a
        | cons b t' =>
          refine h2 a b t' (ih t' ?_)
          simp only [List.length_cons] at hl
          omega
  exact fun l => H l.length l le_rfl

/-- Decompressing the output of the compression loop reproduces the pending
run followed by the unscanned input. -/
lemma rle_aux_roundtrip (rest : List Nat) : ∀ cur cnt, 1 ≤ cnt →
    c_decompress (rle_aux rest cur cnt) = .ok (List.replicate cnt cur ++ rest) := by
  induction rest with
  | nil =>
    intro cur cnt h
    simp [rle_aux, c_decompress, Except.map]
  | cons d rest ih =>
    intro cur cnt h
    by_cases hd : d = cur ∧ cnt < 255
    · rw [rle_aux, if_pos hd, ih cur (cnt + 1) (by omega)]
      rw [List.replicate_succ', hd.1]
      simp
    · rw [rle_aux, if_neg hd]
      rw [show c_decompress (cnt :: cur :: rle_aux rest d 1)
            = (c_decompress (rle_aux rest d 1)).map (fun out => List.replicate cnt cur ++ out)
          from rfl]
      rw [ih d 1 le_rfl]
      simp [Except.map]

/-- Every entry the compression loop emits is below 256, provided the
pending value, the pending count and the remaining input bytes are. -/
lemma rle_aux_mem_lt (rest : List Nat) : ∀ cur cnt, cnt ≤ 255 → cur < 256 →
    (∀ b ∈ rest, b < 256) → ∀ x ∈ rle_aux rest cur cnt, x < 256 := by
  induction rest with
  | nil =>
    intro cur cnt hcnt hcur _ x hx
    simp [rle_aux] at hx
    rcases hx with h | h <;> omega
  | cons d rest ih =>
    intro cur cnt hcnt hcur hrest x hx
    have hd256 : d < 256 := hrest d (by simp)
    have hrest' : ∀ b ∈ rest, b < 256 := fun b hb => hrest b (by simp [hb])
    by_cases hd : d = cur ∧ cnt < 255
    · rw [rle_aux, if_pos hd] at hx
      exact ih cur (cnt + 1) (by omega) hcur hrest' x hx
    · rw [rle_aux, if_neg hd] at hx
      simp only [List.mem_cons] at hx
      rcases hx with h | h | h
      · omega
      · omega
      · exact ih d 1 (by omega) hd256 hrest' x h

/-- Mapping `% 256` over a list of sub-256 entries is the identity. -/
lemma map_mod_of_lt (l : List Nat) (h : ∀ x ∈ l, x < 256) :
    l.map (fun x => x % 256) = l := by
  induction l with
  | nil => rfl
  | cons a t ih =>
    have ha : a < 256 := h a (by simp)
    simp only [List.map_cons, Nat.mod_eq_of_lt ha, List.cons.injEq, true_and]
    exact ih (fun x hx => h x (by simp [hx]))

/-- All counts emitted by the compression loop lie in `[1, 255]`. -/
lemma rle_aux_goodRuns (rest : List Nat) : ∀ cur cnt, 1 ≤ cnt → cnt ≤ 255 →
    goodRuns (rle_aux rest cur cnt) = true := by
  induction rest with
  | nil =>
    intro cur cnt h1 h2
    simp [rle_aux, goodRuns]
    omega
  | cons d rest ih =>
    intro cur cnt h1 h2
    by_cases hd : d = cur ∧ cnt < 255
    · rw [rle_aux, if_pos hd]
      exact ih cur (cnt + 1) (by omega) (by omega)
    · rw [rle_aux, if_neg hd]
      simp [goodRuns, ih d 1 le_rfl (by omega)]
      omega

/-- `goodRuns` is preserved by the `uint8` cast. -/
lemma goodRuns_map_mod : ∀ l, goodRuns l = true →
    goodRuns (l.map (fun x => x % 256)) = true := by
  refine two_step _ ?_ ?_ ?_
  · intro _; rfl
  · intro a h; simp [goodRuns] at h
  · intro a b l ih h
    simp only [goodRuns, Bool.and_eq_true, decide_eq_true_eq] at h
    obtain ⟨⟨h1, h2⟩, h3⟩ := h
    simp only [List.map_cons, goodRuns, Bool.and_eq_true, decide_eq_true_eq]
    exact ⟨⟨by omega, by omega⟩, ih h3⟩

/-- Closed form of the compression loop on a constant input: full runs of
255 followed by the remainder. -/
lemma rle_aux_replicate (x : Nat) : ∀ m cnt, 1 ≤ cnt → cnt ≤ 255 →
    rle_aux (List.replicate m x) x cnt =
      (List.replicate ((m + cnt - 1) / 255) [255, x]).flatten ++ [(m + cnt - 1) % 255 + 1, x] := by
  intro m
  induction m with
  | zero =>
    intro cnt h1 h2
    have hq : (cnt - 1) / 255 = 0 := Nat.div_eq_of_lt (by omega)
    have hr : (cnt - 1) % 255 + 1 = cnt := by
      rw [Nat.mod_eq_of_lt (by omega)]
      omega
    simp [rle_aux, hq, hr]
  | succ m ih =>
    intro cnt h1 h2
    rw [List.replicate_succ]
    by_cases hcnt : cnt < 255
    · rw [rle_aux, if_pos ⟨rfl, hcnt⟩, ih (cnt + 1) (by omega) (by omega)]
      have : m + 1 + cnt - 1 = m + (cnt + 1) - 1 := by omega
      rw [this]
    · have hc : cnt = 255 := by omega
      rw [rle_aux, if_neg (by simp [hc])]
      rw [ih 1 le_rfl (by omega)]
      subst hc
      have hq : (m + 1 + 255 - 1) / 255 = (m + 1 - 1) / 255 + 1 := by
        rw [show m + 1 + 255 - 1 = (m + 1 - 1) + 1 * 255 by omega]
        rw [Nat.add_mul_div_right _ _ (by omega)]
      have hr : (m + 1 + 255 - 1) % 255 = (m + 1 - 1) % 255 := by
        rw [show m + 1 + 255 - 1 = (m + 1 - 1) + 255 by omega]
        exact Nat.add_mod_right _ _
      rw [hq, hr, List.replicate_succ, List.flatten_cons]
      simp

/-- Round-trip of the codec on any frame of byte values. -/
lemma rle_roundtrip_bytes (f : List Nat) (hf : ∀ b ∈ f, b < 256) :
    c_decompress (rle_compress f) = .ok f := by
  match f with
  | [] => rfl
  | d :: rest =>
    have hd : d < 256 := hf d (by simp)
    have hrest : ∀ b ∈ rest, b < 256 := fun b hb => hf b (by simp [hb])
    rw [rle_compress,
      map_mod_of_lt _ (rle_aux_mem_lt rest d 1 (by omega) hd hrest)]
    simpa using rle_aux_roundtrip rest d 1 le_rfl

/-- C1 (confirmed).  RLE round-trip: for every frame `f` of byte values,
feeding `compress(f)` to the decompressor emitted by `generate_header`
reproduces `f` exactly (its length — the caller's `expected_length` —
included); concretely, `[0x00, 0x00, 0xFF, 0xFF]` compresses to
`[2, 0x00, 2, 0xFF]`, which decompresses back to the original bytes. -/
theorem C1_rle_roundtrip :
    (∀ f : List Nat, (∀ b ∈ f, b < 256) → c_decompress (rle_compress f) = .ok f) ∧
    rle_compress [0, 0, 255, 255] = [2, 0, 2, 255] ∧
    c_decompress [2, 0, 2, 255] = .ok [0, 0, 255, 255] :=
  ⟨rle_roundtrip_bytes, by decide, rfl⟩

/-- Witness for C1 at the concrete frame of scenario A. -/
theorem C1_rle_roundtrip_witness :
    c_decompress (rle_compress [0, 0, 255, 255]) = .ok [0, 0, 255, 255] :=
  C1_rle_roundtrip.1 [0, 0, 255, 255] (by decide)

/-- C6 (confirmed).  Run splitting: `rle_compress` emits adjacent
`(count, value)` pairs with every count in `[1, 255]`; a constant input of
`n > 0` copies of a byte `x` compresses to `(n-1)/255` full `(255, x)`
runs followed by a final `((n-1) % 255 + 1, x)` run; in particular 256
copies of `0xAA` compress to exactly `[255, 0xAA, 1, 0xAA]`. -/
theorem C6_run_splitting :
    (∀ f : List Nat, goodRuns (rle_compress f) = true) ∧
    (∀ n x : Nat, 0 < n → x < 256 →
      rle_compress (List.replicate n x) =
        (List.replicate ((n - 1) / 255) [255, x]).flatten ++ [(n - 1) % 255 + 1, x]) ∧
    rle_compress (List.replicate 256 170) = [255, 170, 1, 170] := by
  refine ⟨?_, ?_, by decide⟩
  · intro f
    match f with
    | [] => rfl
    | d :: rest =>
      exact goodRuns_map_mod _ (rle_aux_goodRuns rest d 1 le_rfl (by omega))
  · intro n x hn hx
    match n, hn with
    | n + 1, _ =>
      have hform := rle_aux_replicate x n 1 le_rfl (by omega)
      have hlt : ∀ y ∈ rle_aux (List.replicate n x) x 1, y < 256 := by
        rw [hform]
        intro y hy
        rw [List.mem_append] at hy
        rcases hy with hy | hy
        · rw [List.mem_flatten] at hy
          obtain ⟨l, hl, hyl⟩ := hy
          have hl' := List.eq_of_mem_replicate hl
          subst hl'
          simp only [List.mem_cons, List.not_mem_nil, or_false] at hyl
          rcases hyl with h | h <;> omega
        · simp only [List.mem_cons, List.not_mem_nil, or_false] at hy
          have hmod : (n + 1 - 1) % 255 < 255 := Nat.mod_lt _ (by omega)
          rcases hy with h | h <;> omega
      rw [List.replicate_succ, rle_compress, map_mod_of_lt _ hlt, hform]

/-- Witness for C6 at scenario B (256 copies of `0xAA`). -/
theorem C6_run_splitting_witness :
    rle_compress (List.replicate 256 170) =
      (List.replicate ((256 - 1) / 255) [255, 170]).flatten ++ [(256 - 1) % 255 + 1, 170] :=
  C6_run_splitting.2.1 256 170 (by decide) (by decide)

/-- C3 counterexample.  The decompressor emitted by `generate_header`
performs none of the claimed validation: `[2, 0x00]` with
`expected_length = 4` decodes to `[0, 0]` with no `LengthMismatch`;
`[255, 7]` with `expected_length = 1` appends all 255 bytes instead of
stopping at 1; and odd-length input is an out-of-bounds read, not a
`MalformedRun` failure. -/
theorem C3_no_validation_counterexample :
    c_decompress [2, 0] = .ok [0, 0] ∧
    c_decompress [255, 7] = .ok (List.replicate 255 7) ∧
    c_decompress [2, 0] ≠ .error Err.lengthMismatch ∧
    c_decompress [1] ≠ .error Err.malformedRun := by
  refine ⟨rfl, rfl, ?_, ?_⟩
  · intro h
    exact Except.noConfusion h
  · intro h
    have : Err.indexError = Err.malformedRun := Except.error.inj h
    exact Err.noConfusion this

/-- C3 (corrected).  The emitted decompressor validates nothing: on
even-length input it succeeds and outputs exactly the total of the run
counts — regardless of any expected length, so output can exceed it and a
count total mismatch is never reported — while odd-length input makes its
final iteration read one byte past the end of the buffer (an index error,
not a `MalformedRun`). -/
theorem C3_no_validation (c : List Nat) :
    (c.length % 2 = 0 → ∃ out, c_decompress c = .ok out ∧ out.length = sumCounts c) ∧
    (c.length % 2 = 1 → c_decompress c = .error Err.indexError) := by
  induction c using two_step with
  | h0 => exact ⟨fun _ => ⟨[], rfl, rfl⟩, fun h => by simp at h⟩
  | h1 a => exact ⟨fun h => by simp at h, fun _ => rfl⟩
  | h2 a b l ih =>
    constructor
    · intro he
      have hl : l.length % 2 = 0 := by
        simp only [List.length_cons] at he
        omega
      obtain ⟨out, hout, hlen⟩ := ih.1 hl
      refine ⟨List.replicate a b ++ out, ?_, ?_⟩
      · show (c_decompress l).map _ = _
        rw [hout]
        rfl
      · simp [hlen, sumCounts]
    · intro ho
      have hl : l.length % 2 = 1 := by
        simp only [List.length_cons] at ho
        omega
      show (c_decompress l).map _ = _
      rw [ih.2 hl]
      rfl

/-- Witness for C3 at a length-mismatched even input and an odd input. -/
theorem C3_no_validation_witness :
    (∃ out, c_decompress [2, 7] = .ok out ∧ out.length = sumCounts [2, 7]) ∧
    c_decompress [1] = .error Err.indexError :=
  ⟨(C3_no_validation [2, 7]).1 (by decide), (C3_no_validation [1]).2 (by decide)⟩

/-! ## Container format (`convert_to_spiffs.py`, `create_binary_file`, fed by
`generate_header`'s metadata: `FRAME_COUNT = len(frames)`, `frame_sizes =
[len(cf) for cf in compressed_frames]`, `MAX_COMPRESSED_SIZE = max(sizes)`).
The padding written into the generated header by `generate_header` and the
padding appended by `create_binary_file` produce the same slot bytes, so the
pipeline is modelled as one encoder from the frame list. -/

/-- Little-endian byte pair of a value below 65536 (`struct.pack('<H', n)`). -/
def le16 (n : Nat) : List Nat := [n % 256, n / 256]

/-- `struct.pack('<H', n)`: raises `struct.error` unless `0 ≤ n ≤ 65535`. -/
def packU16 (n : Nat) : Except Err (List Nat) :=
  if n < 65536 then .ok (le16 n) else .error .structError

/-- The frame-size table loop: `for size in frame_sizes: f.write(struct.pack('<H', size))`. -/
def packTable : List Nat → Except Err (List Nat)
  | [] => .ok []
  | s :: rest =>
    match packU16 s, packTable rest with
    | .ok b, .ok t => .ok (b ++ t)
    | .error e, _ => .error e
    | _, .error e => .error e

/-- `compressed_frames = [rle_compress(frame) for frame in frames]`. -/
def compressedFrames (frames : List (List Nat)) : List (List Nat) :=
  frames.map rle_compress

/-- `compressed_sizes = [len(cf) for cf in compressed_frames]`. -/
def frameSizes (frames : List (List Nat)) : List Nat :=
  (compressedFrames frames).map List.length

/-- `max_compressed_size = max(compressed_sizes) if compressed_sizes else 0`. -/
def maxCompressedSize (frames : List (List Nat)) : Nat :=
  (frameSizes frames).foldr Nat.max 0

/-- The frame slots: each compressed payload zero-padded to
`max_compressed_size` (`padding = max_compressed_size - len(frame)`). -/
def slotBytes (frames : List (List Nat)) : List (List Nat) :=
  (compressedFrames frames).map
    (fun cf => cf ++ List.replicate (maxCompressedSize frames - cf.length) 0)

/-- The byte blob `create_binary_file` writes when every `struct.pack`
succeeds: 12-byte header (`<HHH6x`), size table, padded slots. -/
def containerLayout (frames : List (List Nat)) (fps : Nat) : List Nat :=
  le16 frames.length ++ le16 fps ++ le16 (maxCompressedSize frames) ++
    List.replicate 6 0 ++ ((frameSizes frames).map le16).flatten ++
    (slotBytes frames).flatten

/-- `create_binary_file` from `convert_to_spiffs.py`, unified with the
metadata computation of `generate_header`: writes
`struct.pack('<HHH6x', frame_count, fps, max_compressed_size)`, then the
size table, then each compressed frame padded with zeros to
`max_compressed_size`.  Any out-of-range value makes `struct.pack` raise. -/
def create_binary_file (frames : List (List Nat)) (fps : Nat) : Except Err (List Nat) :=
  match packU16 frames.length with
  | .error e => .error e
  | .ok h1 =>
    match packU16 fps with
    | .error e => .error e
    | .ok h2 =>
      match packU16 (maxCompressedSize frames) with
      | .error e => .error e
      | .ok h3 =>
        match packTable (frameSizes frames) with
        | .error e => .error e
        | .ok table =>
          .ok (h1 ++ h2 ++ h3 ++ List.replicate 6 0 ++ table ++ (slotBytes frames).flatten)

/-- Read the little-endian u16 stored at byte offset `off` of a blob. -/
def readU16 (blob : List Nat) (off : Nat) : Nat :=
  (blob.drop off).headD 0 + 256 * ((blob.drop off).tail.headD 0)

/-- Modelled from the spec: the container consumer (`decode_frame`) is not
among the source files — only the encoder side is.  Per the spec it
validates `index < frame_count` (else `IndexOutOfRange`), computes the slot
offset `12 + 2*frame_count + index*max_compressed_size` arithmetically,
reads `table[index]` bytes from the slot start (ignoring the padding), and
decompresses them — here with the repository's emitted RLE decompressor. -/
def decode_frame (blob : List Nat) (i : Nat) : Except Err (List Nat) :=
  if i < readU16 blob 0 then
    c_decompress
      ((blob.drop (12 + 2 * readU16 blob 0 + i * readU16 blob 4)).take
        (readU16 blob (12 + 2 * i)))
  else .error .indexOutOfRange

lemma packU16_ok_iff (n : Nat) (b : List Nat) :
    packU16 n = .ok b ↔ n < 65536 ∧ b = le16 n := by
  unfold packU16
  split
  · simp_all [eq_comm]
  · simp_all

lemma packTable_ok_iff : ∀ (sizes : List Nat) (t : List Nat),
    packTable sizes = .ok t ↔ (∀ s ∈ sizes, s < 65536) ∧ t = (sizes.map le16).flatten := by
  intro sizes
  induction sizes with
  | nil => intro t; simp [packTable, eq_comm]
  | cons s rest ih =>
    intro t
    constructor
    · intro h
      rw [packTable] at h
      rcases hb : packU16 s with e | b <;> rw [hb] at h
      · exact absurd h (by simp)
      · rcases ht : packTable rest with e | tr <;> rw [ht] at h
        · exact absurd h (by simp)
        · obtain ⟨hs, hble⟩ := (packU16_ok_iff s b).mp hb
          obtain ⟨hall, htr⟩ := (ih tr).mp ht
          refine ⟨?_, ?_⟩
          · intro x hx
            rcases List.mem_cons.mp hx with h' | h'
            · omega
            · exact hall x h'
          · simp only [Except.ok.injEq] at h
            rw [← h, hble, htr]
            simp
    · rintro ⟨hall, ht⟩
      have hs : s < 65536 := hall s (by simp)
      have hrest : ∀ x ∈ rest, x < 65536 := fun x hx => hall x (by simp [hx])
      rw [packTable, show packU16 s = .ok (le16 s) from by simp [packU16, hs],
        show packTable rest = .ok ((rest.map le16).flatten) from (ih _).mpr ⟨hrest, rfl⟩]
      simp [ht]

lemma packTable_error : ∀ (sizes : List Nat) (e : Err),
    packTable sizes = .error e → e = .structError := by
  intro sizes
  induction sizes with
  | nil => intro e h; exact absurd h (by simp [packTable])
  | cons s rest ih =>
    intro e h
    rw [packTable] at h
    rcases hb : packU16 s with e' | b <;> rw [hb] at h
    · unfold packU16 at hb
      split at hb
      · exact absurd hb (by simp)
      · simp only [Except.error.injEq] at hb h
        rw [← h, ← hb]
    · rcases ht : packTable rest with e' | tr <;> rw [ht] at h
      · simp only [Except.error.injEq] at h
        rw [← h]
        exact ih e' ht
      · exact absurd h (by simp)

/-- The encoder either produces exactly the layout (when all values fit in
u16) or raises `struct.error`. -/
lemma create_cases (frames : List (List Nat)) (fps : Nat) :
    (create_binary_file frames fps = .ok (containerLayout frames fps) ∧
      frames.length < 65536 ∧ fps < 65536 ∧ maxCompressedSize frames < 65536 ∧
      (∀ s ∈ frameSizes frames, s < 65536)) ∨
    create_binary_file frames fps = .error .structError := by
  have hperr : ∀ n e, packU16 n = .error e → e = Err.structError := by
    intro n e h
    unfold packU16 at h
    split at h
    · exact absurd h (by simp)
    · simp only [Except.error.injEq] at h
      rw [← h]
  rcases h1 : packU16 frames.length with e1 | b1
  · right
    rw [create_binary_file, h1, hperr _ _ h1]
  · rcases h2 : packU16 fps with e2 | b2
    · right
      rw [create_binary_file, h1, h2, hperr _ _ h2]
    · rcases h3 : packU16 (maxCompressedSize frames) with e3 | b3
      · right
        rw [create_binary_file, h1, h2, h3, hperr _ _ h3]
      · rcases h4 : packTable (frameSizes frames) with e4 | t4
        · right
          rw [create_binary_file, h1, h2, h3, h4, packTable_error _ _ h4]
        · left
          rw [create_binary_file, h1, h2, h3, h4]
          obtain ⟨hb1, he1⟩ := (packU16_ok_iff _ _).mp h1
          obtain ⟨hb2, he2⟩ := (packU16_ok_iff _ _).mp h2
          obtain ⟨hb3, he3⟩ := (packU16_ok_iff _ _).mp h3
          obtain ⟨hb4, he4⟩ := (packTable_ok_iff _ _).mp h4
          subst he1
          subst he2
          subst he3
          subst he4
          exact ⟨by simp [containerLayout], hb1, hb2, hb3, hb4⟩

/-- Success characterization of the encoder. -/
lemma create_ok_iff (frames : List (List Nat)) (fps : Nat) (blob : List Nat) :
    create_binary_file frames fps = .ok blob ↔
      (frames.length < 65536 ∧ fps < 65536 ∧ maxCompressedSize frames < 65536 ∧
        (∀ s ∈ frameSizes frames, s < 65536)) ∧
      blob = containerLayout frames fps := by
  rcases create_cases frames fps with ⟨hok, hb⟩ | herr
  · rw [hok]
    constructor
    · intro h
      simp only [Except.ok.injEq] at h
      exact ⟨hb, h.symm⟩
    · rintro ⟨_, h⟩
      rw [h]
  · rw [herr]
    constructor
    · intro h
      exact absurd h (by simp)
    · rintro ⟨hbounds, _⟩
      rcases create_cases frames fps with ⟨hok, _⟩ | herr'
      · rw [hok] at herr
        exact absurd herr (by simp)
      · exfalso
        rcases create_cases frames fps with ⟨hok, _⟩ | h'
        · rw [hok] at herr
          exact absurd herr (by simp)
        · revert h'
          intro h'
          obtain ⟨hfc, hfps, hmax, hsz⟩ := hbounds
          have hok : create_binary_file frames fps = .ok (containerLayout frames fps) := by
            unfold create_binary_file
            rw [show packU16 frames.length = .ok (le16 frames.length) from by
                simp [packU16, hfc],
              show packU16 fps = .ok (le16 fps) from by simp [packU16, hfps],
              show packU16 (maxCompressedSize frames) = .ok (le16 (maxCompressedSize frames)) from by
                simp [packU16, hmax],
              show packTable (frameSizes frames) = .ok (((frameSizes frames).map le16).flatten) from
                (packTable_ok_iff _ _).mpr ⟨hsz, rfl⟩]
            simp [containerLayout]
          rw [hok] at h'
          exact absurd h' (by simp)

lemma readU16_cons2 (a b : Nat) (rest : List Nat) : readU16 (a :: b :: rest) 0 = a + 256 * b := rfl

lemma readU16_cons_add2 (a b : Nat) (rest : List Nat) (k : Nat) :
    readU16 (a :: b :: rest) (k + 2) = readU16 rest k := by
  unfold readU16
  rw [show ((a :: b :: rest).drop (k + 2)) = rest.drop k from by
    rw [show k + 2 = k + 1 + 1 from rfl, List.drop_succ_cons, List.drop_succ_cons]]

lemma readU16_append (A rest : List Nat) (k : Nat) :
    readU16 (A ++ rest) (A.length + k) = readU16 rest k := by
  unfold readU16
  rw [← List.drop_drop, List.drop_left]

lemma le_foldr_max : ∀ (l : List Nat) (x : Nat), x ∈ l → x ≤ l.foldr Nat.max 0 := by
  intro l
  induction l with
  | nil => intro x hx; simp at hx
  | cons a t ih =>
    intro x hx
    simp only [List.foldr_cons]
    rcases List.mem_cons.mp hx with h | h
    · subst h
      exact Nat.le_max_left _ _
    · exact (ih x h).trans (Nat.le_max_right _ _)

lemma flatten_length_const (k : Nat) : ∀ (L : List (List Nat)),
    (∀ l ∈ L, l.length = k) → (L.flatten).length = L.length * k := by
  intro L
  induction L with
  | nil => intro _; simp
  | cons l L' ih =>
    intro h
    simp only [List.flatten_cons, List.length_append, List.length_cons]
    rw [h l (by simp), ih (fun x hx => h x (by simp [hx]))]
    ring

lemma flatten_drop_stride (k : Nat) : ∀ (i : Nat) (L : List (List Nat)),
    (∀ l ∈ L, l.length = k) → (L.flatten).drop (i * k) = (L.drop i).flatten := by
  intro i
  induction i with
  | zero => intro L _; simp
  | succ i ih =>
    intro L hL
    cases L with
    | nil => simp
    | cons l L' =>
      have hl : (i + 1) * k = l.length + i * k := by
        rw [hL l (by simp)]
        ring
      rw [hl, List.flatten_cons, ← List.drop_drop, List.drop_left,
        ih L' (fun x hx => hL x (by simp [hx])), List.drop_succ_cons]

lemma frameSizes_length (frames : List (List Nat)) :
    (frameSizes frames).length = frames.length := by
  simp [frameSizes, compressedFrames]

lemma tableFlat_length (sizes : List Nat) :
    ((sizes.map le16).flatten).length = sizes.length * 2 := by
  rw [flatten_length_const 2]
  · simp
  · intro l hl
    rw [List.mem_map] at hl
    obtain ⟨s, _, rfl⟩ := hl
    rfl

lemma slotBytes_length (frames : List (List Nat)) :
    ∀ sl ∈ slotBytes frames, sl.length = maxCompressedSize frames := by
  intro sl hsl
  unfold slotBytes at hsl
  rw [List.mem_map] at hsl
  obtain ⟨cf, hcf, rfl⟩ := hsl
  have hmem : cf.length ∈ frameSizes frames := by
    unfold frameSizes
    exact List.mem_map_of_mem _ hcf
  have hle := le_foldr_max _ _ hmem
  unfold maxCompressedSize at *
  simp only [List.length_append, List.length_replicate]
  omega

lemma layout_cons (frames : List (List Nat)) (fps : Nat) :
    containerLayout frames fps =
      frames.length % 256 :: frames.length / 256 :: fps % 256 :: fps / 256 ::
        maxCompressedSize frames % 256 :: maxCompressedSize frames / 256 ::
        (List.replicate 6 0 ++ ((frameSizes frames).map le16).flatten ++
          (slotBytes frames).flatten) := rfl

lemma readU16_layout_hdr (frames : List (List Nat)) (fps : Nat) :
    readU16 (containerLayout frames fps) 0 = frames.length ∧
    readU16 (containerLayout frames fps) 2 = fps ∧
    readU16 (containerLayout frames fps) 4 = maxCompressedSize frames := by
  refine ⟨?_, ?_, ?_⟩
  · rw [layout_cons, readU16_cons2]
    omega
  · rw [layout_cons, show (2 : Nat) = 0 + 2 from rfl, readU16_cons_add2, readU16_cons2]
    omega
  · rw [layout_cons, show (4 : Nat) = 2 + 2 from rfl, readU16_cons_add2,
      show (2 : Nat) = 0 + 2 from rfl, readU16_cons_add2, readU16_cons2]
    omega

lemma hdrTable_split (frames : List (List Nat)) (fps : Nat) :
    containerLayout frames fps =
      ((le16 frames.length ++ le16 fps ++ le16 (maxCompressedSize frames) ++
          List.replicate 6 0) ++ ((frameSizes frames).map le16).flatten) ++
        (slotBytes frames).flatten := by
  unfold containerLayout
  simp [List.append_assoc]

lemma readU16_tableFlat : ∀ (sizes : List Nat) (S : List Nat) (i : Nat), i < sizes.length →
    readU16 ((sizes.map le16).flatten ++ S) (2 * i) = sizes.getD i 0 := by
  intro sizes
  induction sizes with
  | nil =>
    intro S i hi
    simp at hi
  | cons s rest ih =>
    intro S i hi
    cases i with
    | zero =>
      show readU16 (s % 256 :: s / 256 :: ((rest.map le16).flatten ++ S)) 0 = s
      rw [readU16_cons2]
      omega
    | succ i =>
      rw [show 2 * (i + 1) = 2 * i + 2 from by ring]
      show readU16 (s % 256 :: s / 256 :: ((rest.map le16).flatten ++ S)) (2 * i + 2) =
        (s :: rest).getD (i + 1) 0
      rw [readU16_cons_add2, List.getD_cons_succ]
      exact ih S i (by simpa using hi)

lemma readU16_layout_table (frames : List (List Nat)) (fps i : Nat) (hi : i < frames.length) :
    readU16 (containerLayout frames fps) (12 + 2 * i) = (frameSizes frames).getD i 0 := by
  have h12 : (le16 frames.length ++ le16 fps ++ le16 (maxCompressedSize frames) ++
      List.replicate 6 0).length = 12 := rfl
  rw [show containerLayout frames fps =
        (le16 frames.length ++ le16 fps ++ le16 (maxCompressedSize frames) ++
          List.replicate 6 0) ++
          (((frameSizes frames).map le16).flatten ++ (slotBytes frames).flatten) from by
      unfold containerLayout
      simp [List.append_assoc],
    show 12 + 2 * i = (le16 frames.length ++ le16 fps ++ le16 (maxCompressedSize frames) ++
      List.replicate 6 0).length + 2 * i from by rw [h12],
    readU16_append]
  exact readU16_tableFlat (frameSizes frames) _ i (by rw [frameSizes_length]; exact hi)

lemma layout_slot (frames : List (List Nat)) (fps i : Nat) (hi : i < frames.length) :
    ((containerLayout frames fps).drop
        (12 + 2 * frames.length + i * maxCompressedSize frames)).take
        ((frameSizes frames).getD i 0) =
      (compressedFrames frames).getD i [] := by
  have hncf : i < (compressedFrames frames).length := by
    unfold compressedFrames
    simpa using hi
  have hnsl : i < (slotBytes frames).length := by
    unfold slotBytes
    simpa using hncf
  have hlenA : ((le16 frames.length ++ le16 fps ++ le16 (maxCompressedSize frames) ++
      List.replicate 6 0) ++ ((frameSizes frames).map le16).flatten).length =
      12 + 2 * frames.length := by
    have h12 : (le16 frames.length ++ le16 fps ++ le16 (maxCompressedSize frames) ++
        List.replicate 6 0).length = 12 := rfl
    rw [List.length_append, tableFlat_length, frameSizes_length, h12]
    omega
  have hsz : (frameSizes frames).getD i 0 = ((compressedFrames frames).getD i []).length := by
    unfold frameSizes
    rw [List.getD_eq_getElem _ _ (by simpa using hncf), List.getD_eq_getElem _ _ hncf,
      List.getElem_map]
  have hslot : (slotBytes frames)[i] =
      ((compressedFrames frames).getD i []) ++
        List.replicate (maxCompressedSize frames -
          ((compressedFrames frames).getD i []).length) 0 := by
    unfold slotBytes
    rw [List.getElem_map, List.getD_eq_getElem _ _ hncf]
  rw [hdrTable_split, show 12 + 2 * frames.length + i * maxCompressedSize frames =
      ((le16 frames.length ++ le16 fps ++ le16 (maxCompressedSize frames) ++
        List.replicate 6 0) ++ ((frameSizes frames).map le16).flatten).length +
        i * maxCompressedSize frames from by rw [hlenA],
    ← List.drop_drop, List.drop_left,
    flatten_drop_stride _ i _ (slotBytes_length frames),
    List.drop_eq_getElem_cons hnsl, List.flatten_cons, hslot, hsz, List.append_assoc,
    List.take_left]

/-- C2 (confirmed, with the decoder side modelled from the spec).
Container round-trip: for every non-empty list of equal-length byte frames
and every valid index `i`, reading `table[i]` bytes from slot `i` of the
blob produced by `create_binary_file` and decompressing them yields
exactly `frames[i]`. -/
theorem C2_container_roundtrip :
    ∀ (frames : List (List Nat)) (fps i : Nat) (blob : List Nat),
      frames ≠ [] →
      (∀ f ∈ frames, f.length = (frames.headD []).length) →
      (∀ f ∈ frames, ∀ b ∈ f, b < 256) →
      i < frames.length →
      create_binary_file frames fps = .ok blob →
      decode_frame blob i = .ok (frames.getD i []) := by
  intro frames fps i blob _ _ hbytes hi hcreate
  obtain ⟨_, rfl⟩ := (create_ok_iff frames fps blob).mp hcreate
  obtain ⟨hr0, _, hr4⟩ := readU16_layout_hdr frames fps
  unfold decode_frame
  rw [hr0, if_pos hi, hr4, readU16_layout_table frames fps i hi,
    layout_slot frames fps i hi,
    show (compressedFrames frames).getD i [] = rle_compress (frames.getD i []) from by
      unfold compressedFrames
      rw [List.getD_eq_getElem _ _ (by simpa using hi), List.getD_eq_getElem _ _ hi,
        List.getElem_map]]
  have hmem : frames.getD i [] ∈ frames := by
    rw [List.getD_eq_getElem _ _ hi]
    exact List.getElem_mem hi
  exact rle_roundtrip_bytes _ (hbytes _ hmem)

/-- Witness for C2: a one-frame animation at fps 10, decoded at index 0. -/
theorem C2_container_roundtrip_witness :
    decode_frame (containerLayout [[0, 0, 255, 255]] 10) 0 = .ok [0, 0, 255, 255] :=
  C2_container_roundtrip [[0, 0, 255, 255]] 10 0 (containerLayout [[0, 0, 255, 255]] 10)
    (by simp) (by decide) (by decide) (by decide) rfl

lemma containerLayout_length (frames : List (List Nat)) (fps : Nat) :
    (containerLayout frames fps).length =
      12 + 2 * frames.length + frames.length * maxCompressedSize frames := by
  unfold containerLayout
  have hsl : (slotBytes frames).length = frames.length := by
    unfold slotBytes compressedFrames
    simp
  rw [List.length_append, List.length_append, List.length_append, List.length_append,
    List.length_append, tableFlat_length, frameSizes_length,
    flatten_length_const (maxCompressedSize frames) _ (slotBytes_length frames), hsl]
  simp [le16]
  omega

/-- The full `max_compressed_size`-byte slot of frame `i`: the compressed
payload followed by zero padding. -/
lemma layout_slot_full (frames : List (List Nat)) (fps i : Nat) (hi : i < frames.length) :
    ((containerLayout frames fps).drop
        (12 + 2 * frames.length + i * maxCompressedSize frames)).take
        (maxCompressedSize frames) =
      (compressedFrames frames).getD i [] ++
        List.replicate (maxCompressedSize frames - (frameSizes frames).getD i 0) 0 := by
  have hncf : i < (compressedFrames frames).length := by
    unfold compressedFrames
    simpa using hi
  have hnsl : i < (slotBytes frames).length := by
    unfold slotBytes
    simpa using hncf
  have hlenA : ((le16 frames.length ++ le16 fps ++ le16 (maxCompressedSize frames) ++
      List.replicate 6 0) ++ ((frameSizes frames).map le16).flatten).length =
      12 + 2 * frames.length := by
    have h12 : (le16 frames.length ++ le16 fps ++ le16 (maxCompressedSize frames) ++
        List.replicate 6 0).length = 12 := rfl
    rw [List.length_append, tableFlat_length, frameSizes_length, h12]
    omega
  have hsz : (frameSizes frames).getD i 0 = ((compressedFrames frames).getD i []).length := by
    unfold frameSizes
    rw [List.getD_eq_getElem _ _ (by simpa using hncf), List.getD_eq_getElem _ _ hncf,
      List.getElem_map]
  have hslot : (slotBytes frames)[i] =
      ((compressedFrames frames).getD i []) ++
        List.replicate (maxCompressedSize frames -
          ((compressedFrames frames).getD i []).length) 0 := by
    unfold slotBytes
    rw [List.getElem_map, List.getD_eq_getElem _ _ hncf]
  have hslen : ((slotBytes frames)[i]).length = maxCompressedSize frames :=
    slotBytes_length frames _ (List.getElem_mem hnsl)
  rw [hdrTable_split, show 12 + 2 * frames.length + i * maxCompressedSize frames =
      ((le16 frames.length ++ le16 fps ++ le16 (maxCompressedSize frames) ++
        List.replicate 6 0) ++ ((frameSizes frames).map le16).flatten).length +
        i * maxCompressedSize frames from by rw [hlenA],
    ← List.drop_drop, List.drop_left,
    flatten_drop_stride _ i _ (slotBytes_length frames),
    List.drop_eq_getElem_cons hnsl, List.flatten_cons, List.take_left' hslen, hslot, hsz]

/-- C4 (confirmed).  Container serialization layout: the encoded blob is a
12-byte little-endian header (`frame_count`, `fps`, `max_compressed_size`,
6 reserved zero bytes), then `frame_count` little-endian u16 true
compressed sizes at offset 12, then `frame_count` slots of exactly
`max_compressed_size` bytes, slot `i` being the compressed payload
followed by zero padding up to `max_compressed_size`; three length-4
frames with compressed sizes 4, 6, 4 give `max_compressed_size = 6` and a
36-byte container. -/
theorem C4_container_serialization :
    (∀ (frames : List (List Nat)) (fps : Nat) (blob : List Nat),
      create_binary_file frames fps = .ok blob →
      blob.length = 12 + 2 * frames.length + frames.length * maxCompressedSize frames ∧
      blob.take 12 = le16 frames.length ++ le16 fps ++ le16 (maxCompressedSize frames) ++
        List.replicate 6 0 ∧
      readU16 blob 0 = frames.length ∧ readU16 blob 2 = fps ∧
      readU16 blob 4 = maxCompressedSize frames ∧
      (∀ i, i < frames.length → readU16 blob (12 + 2 * i) = (frameSizes frames).getD i 0) ∧
      (∀ i, i < frames.length →
        (blob.drop (12 + 2 * frames.length + i * maxCompressedSize frames)).take
          ((frameSizes frames).getD i 0) = (compressedFrames frames).getD i []) ∧
      (∀ i, i < frames.length →
        (blob.drop (12 + 2 * frames.length + i * maxCompressedSize frames)).take
          (maxCompressedSize frames) =
          (compressedFrames frames).getD i [] ++
            List.replicate (maxCompressedSize frames - (frameSizes frames).getD i 0) 0)) ∧
    (frameSizes [[0, 0, 1, 1], [0, 1, 2, 2], [5, 5, 9, 9]] = [4, 6, 4] ∧
      maxCompressedSize [[0, 0, 1, 1], [0, 1, 2, 2], [5, 5, 9, 9]] = 6 ∧
      ∃ blob, create_binary_file [[0, 0, 1, 1], [0, 1, 2, 2], [5, 5, 9, 9]] 7 = .ok blob ∧
        blob.length = 36) := by
  constructor
  · intro frames fps blob hc
    obtain ⟨_, rfl⟩ := (create_ok_iff frames fps blob).mp hc
    obtain ⟨h0, h2, h4⟩ := readU16_layout_hdr frames fps
    refine ⟨containerLayout_length frames fps, ?_, h0, h2, h4,
      fun i hi => readU16_layout_table frames fps i hi,
      fun i hi => layout_slot frames fps i hi,
      fun i hi => layout_slot_full frames fps i hi⟩
    have h12 : (le16 frames.length ++ le16 fps ++ le16 (maxCompressedSize frames) ++
        List.replicate 6 0).length = 12 := rfl
    rw [hdrTable_split, List.append_assoc]
    exact List.take_left' h12
  · exact ⟨by decide, by decide,
      containerLayout [[0, 0, 1, 1], [0, 1, 2, 2], [5, 5, 9, 9]] 7, rfl, by decide⟩

/-- Witness for C4 at scenario C (three frames, compressed sizes 4, 6, 4). -/
theorem C4_container_serialization_witness :
    (containerLayout [[0, 0, 1, 1], [0, 1, 2, 2], [5, 5, 9, 9]] 7).length =
      12 + 2 * 3 + 3 * maxCompressedSize [[0, 0, 1, 1], [0, 1, 2, 2], [5, 5, 9, 9]] :=
  (C4_container_serialization.1 [[0, 0, 1, 1], [0, 1, 2, 2], [5, 5, 9, 9]] 7
    (containerLayout [[0, 0, 1, 1], [0, 1, 2, 2], [5, 5, 9, 9]] 7) rfl).1

/-- C5 (confirmed).  Size-table invariant: in the encoded blob the stored
`max_compressed_size` equals the maximum of the stored frame-size table
entries, and every entry is at most `max_compressed_size`. -/
theorem C5_size_table_invariant :
    ∀ (frames : List (List Nat)) (fps : Nat) (blob : List Nat),
      frames ≠ [] →
      create_binary_file frames fps = .ok blob →
      (∀ i, i < frames.length → readU16 blob (12 + 2 * i) ≤ readU16 blob 4) ∧
      readU16 blob 4 =
        ((List.range frames.length).map
          (fun i => readU16 blob (12 + 2 * i))).foldr Nat.max 0 := by
  intro frames fps blob _ hc
  obtain ⟨_, rfl⟩ := (create_ok_iff frames fps blob).mp hc
  obtain ⟨_, _, h4⟩ := readU16_layout_hdr frames fps
  constructor
  · intro i hi
    rw [h4, readU16_layout_table frames fps i hi]
    have hilen : i < (frameSizes frames).length := by
      rw [frameSizes_length]
      exact hi
    have hmem : (frameSizes frames).getD i 0 ∈ frameSizes frames := by
      rw [List.getD_eq_getElem _ _ hilen]
      exact List.getElem_mem hilen
    exact le_foldr_max _ _ hmem
  · rw [h4]
    have hmap : (List.range frames.length).map
        (fun i => readU16 (containerLayout frames fps) (12 + 2 * i)) = frameSizes frames := by
      apply List.ext_getElem
      · simp [frameSizes_length]
      · intro i h1 h2
        simp only [List.getElem_map, List.getElem_range]
        rw [readU16_layout_table frames fps i (by simpa using h1)]
        exact List.getD_eq_getElem _ _ _
    rw [hmap]
    rfl

/-- Witness for C5 at scenario C. -/
theorem C5_size_table_invariant_witness :
    readU16 (containerLayout [[0, 0, 1, 1], [0, 1, 2, 2], [5, 5, 9, 9]] 7) (12 + 2 * 0) ≤
      readU16 (containerLayout [[0, 0, 1, 1], [0, 1, 2, 2], [5, 5, 9, 9]] 7) 4 :=
  (C5_size_table_invariant [[0, 0, 1, 1], [0, 1, 2, 2], [5, 5, 9, 9]] 7
    (containerLayout [[0, 0, 1, 1], [0, 1, 2, 2], [5, 5, 9, 9]] 7)
    (by decide) rfl).1 0 (by decide)

/-- C10 (confirmed).  Implicit u16 range limit: `create_binary_file`
succeeds exactly when `frame_count`, `fps`, `max_compressed_size` and every
size-table entry are below 65536 (`struct.pack('<H', ...)` raises
`struct.error` otherwise — negative values cannot arise in the pipeline,
all quantities being counts or lengths), and on success each stored value
reads back exactly, never truncated modulo 2^16. -/
theorem C10_u16_range_limit :
    ∀ (frames : List (List Nat)) (fps : Nat),
      ((∃ blob, create_binary_file frames fps = .ok blob) ↔
        (frames.length < 65536 ∧ fps < 65536 ∧ maxCompressedSize frames < 65536 ∧
          ∀ s ∈ frameSizes frames, s < 65536)) ∧
      (¬ (frames.length < 65536 ∧ fps < 65536 ∧ maxCompressedSize frames < 65536 ∧
          ∀ s ∈ frameSizes frames, s < 65536) →
        create_binary_file frames fps = .error Err.structError) ∧
      (∀ blob, create_binary_file frames fps = .ok blob →
        readU16 blob 0 = frames.length ∧ readU16 blob 2 = fps ∧
        readU16 blob 4 = maxCompressedSize frames ∧
        ∀ i, i < frames.length → readU16 blob (12 + 2 * i) = (frameSizes frames).getD i 0) := by
  intro frames fps
  refine ⟨⟨?_, ?_⟩, ?_, ?_⟩
  · rintro ⟨blob, hb⟩
    exact ((create_ok_iff frames fps blob).mp hb).1
  · intro hbounds
    exact ⟨containerLayout frames fps, (create_ok_iff frames fps _).mpr ⟨hbounds, rfl⟩⟩
  · intro hn
    rcases create_cases frames fps with ⟨_, hb1, hb2, hb3, hb4⟩ | herr
    · exact absurd ⟨hb1, hb2, hb3, hb4⟩ hn
    · exact herr
  · intro blob hb
    obtain ⟨_, rfl⟩ := (create_ok_iff frames fps blob).mp hb
    obtain ⟨h0, h2, h4⟩ := readU16_layout_hdr frames fps
    exact ⟨h0, h2, h4, fun i hi => readU16_layout_table frames fps i hi⟩

/-- Witness for C10: an fps of 70000 is rejected with `struct.error`; small
values are accepted. -/
theorem C10_u16_range_limit_witness :
    create_binary_file [[0]] 70000 = .error Err.structError ∧
    ∃ blob, create_binary_file [[0]] 10 = .ok blob :=
  ⟨(C10_u16_range_limit [[0]] 70000).2.1 (by decide),
    (C10_u16_range_limit [[0]] 10).1.mpr (by decide)⟩

/-! ## Similarity segmenter (`Frame Viewer.py`, `calculate_frame_difference`
and `group_frames_by_similarity`).  The ordered frame list stands for the
frames dict traversed in sorted key order; indices stand for the sorted
frame numbers. -/

/-- `sum(abs(a - b) for a, b in zip(frame1_data, frame2_data))`. -/
def absDiffSum : List Nat → List Nat → Nat
  | a :: as, b :: bs => (Nat.max a b - Nat.min a b) + absDiffSum as bs
  | _, _ => 0

/-- Value of `calculate_frame_difference`: `float('inf')` or a finite mean
absolute per-byte difference. -/
inductive Dist where
  | infinite
  | finite (q : ℚ)

/-- The comparison `diff > threshold`; `float('inf')` exceeds every finite
threshold. -/
def distGT : Dist → ℚ → Bool
  | .infinite, _ => true
  | .finite q, t => decide (t < q)

/-- `calculate_frame_difference` from `Frame Viewer.py`: buffers of unequal
length give `float('inf')`; equal-length buffers give `diff / len` — which
raises `ZeroDivisionError` when both buffers are empty. -/
def calculate_frame_difference (f1 f2 : List Nat) : Except Err Dist :=
  if f1.length ≠ f2.length then .ok .infinite
  else if f1.length = 0 then .error .zeroDivisionError
  else .ok (.finite ((absDiffSum f1 f2 : ℚ) / (f1.length : ℚ)))

/-- Loop of `group_frames_by_similarity`: `rest` holds the frames not yet
scanned, `prev` the previous frame, `i` the index of the head of `rest`,
`cur` the current group of indices, `acc` the closed groups.  A distance
above the threshold closes the current group; the trailing group is
appended after the loop. -/
def groupGo (t : ℚ) : List (List Nat) → List Nat → Nat → List Nat →
    List (List Nat) → Except Err (List (List Nat))
  | [], _, _, cur, acc => .ok (acc ++ [cur])
  | f :: rest, prev, i, cur, acc =>
    match calculate_frame_difference prev f with
    | .error e => .error e
    | .ok d =>
      if distGT d t then groupGo t rest f (i + 1) [i] (acc ++ [cur])
      else groupGo t rest f (i + 1) (cur ++ [i]) acc

/-- `group_frames_by_similarity` from `Frame Viewer.py`.  On an empty input
the code evaluates `frame_numbers[0]` on the empty sorted key list — an
`IndexError`. -/
def group_frames_by_similarity (frames : List (List Nat)) (t : ℚ) :
    Except Err (List (List Nat)) :=
  match frames with
  | [] => .error .indexError
  | f0 :: rest => groupGo t rest f0 1 [0] []

/-- Whether the scan opens a new clip at the frame `f` that follows `prev`
(the comparison crashing counts as a boundary; it never happens on the
inputs considered). -/
def boundaryB (t : ℚ) (prev f : List Nat) : Bool :=
  match calculate_frame_difference prev f with
  | .ok d => distGT d t
  | .error _ => true

/-- The indices at and after `i` at which the scan opens a new clip,
`prev` being the frame before position `i`. -/
def boundaries (t : ℚ) : List Nat → List (List Nat) → Nat → List Nat
  | _, [], _ => []
  | prev, f :: rest, i =>
    if boundaryB t prev f then i :: boundaries t f rest (i + 1)
    else boundaries t f rest (i + 1)

lemma headD_append_left (a b : List Nat) (h : a ≠ []) (d : Nat) :
    (a ++ b).headD d = a.headD d := by
  cases a with
  | nil => exact absurd rfl h
  | cons x t => rfl

/-- The closed-groups accumulator only prefixes the final result. -/
lemma groupGo_acc (t : ℚ) : ∀ (rest : List (List Nat)) (prev : List Nat) (i : Nat)
    (cur : List Nat) (acc : List (List Nat)),
    groupGo t rest prev i cur acc =
      (groupGo t rest prev i cur []).map (fun x => acc ++ x) := by
  intro rest
  induction rest with
  | nil =>
    intro prev i cur acc
    simp [groupGo, Except.map]
  | cons f rest ih =>
    intro prev i cur acc
    simp only [groupGo]
    rcases hd : calculate_frame_difference prev f with e | d
    · rfl
    · by_cases hb : distGT d t = true
      · simp only [hb, if_true]
        rw [ih f (i + 1) [i] (acc ++ [cur]), ih f (i + 1) [i] ([] ++ [cur])]
        cases groupGo t rest f (i + 1) [i] [] with
        | error e => rfl
        | ok x => simp [Except.map]
      · simp only [hb, if_false]
        exact ih f (i + 1) (cur ++ [i]) acc

/-- Invariant of the scanning loop: it succeeds whenever no two adjacent
frames are both empty, its groups concatenate to the processed index
range, all groups are non-empty, and groups open exactly at boundary
indices. -/
lemma groupGo_spec (t : ℚ) : ∀ (rest : List (List Nat)) (prev : List Nat) (i : Nat)
    (cur : List Nat),
    List.Chain' (fun a b => a ≠ [] ∨ b ≠ []) (prev :: rest) → cur ≠ [] →
    ∃ clips, groupGo t rest prev i cur [] = .ok clips ∧
      clips.flatten = cur ++ List.range' i rest.length ∧
      (∀ c ∈ clips, c ≠ []) ∧
      clips.map (fun c => c.headD 0) = cur.headD 0 :: boundaries t prev rest i := by
  intro rest
  induction rest with
  | nil =>
    intro prev i cur _ hcur
    refine ⟨[cur], rfl, by simp, ?_, by simp [boundaries]⟩
    intro c hc
    rw [List.mem_singleton.mp hc]
    exact hcur
  | cons f rest ih =>
    intro prev i cur hchain hcur
    obtain ⟨hpf, hchain'⟩ := List.chain'_cons.mp hchain
    have hdiff : ∃ d, calculate_frame_difference prev f = .ok d := by
      unfold calculate_frame_difference
      by_cases he : prev.length = f.length
      · have hne0 : prev.length ≠ 0 := by
          intro h0
          have hp : prev = [] := List.length_eq_zero.mp h0
          have hf : f = [] := List.length_eq_zero.mp (by rw [← he]; exact h0)
          rcases hpf with h | h
          · exact h hp
          · exact h hf
        have hfne : f ≠ [] := by
          intro hh
          apply hne0
          rw [he, hh]
          rfl
        simp [he, hne0, hfne]
      · simp [he]
    obtain ⟨d, hd⟩ := hdiff
    have hbnd : boundaryB t prev f = distGT d t := by
      unfold boundaryB
      rw [hd]
    by_cases hb : distGT d t = true
    · obtain ⟨clips', hok, hflat, hne, hheads⟩ := ih f (i + 1) [i] hchain' (by simp)
      refine ⟨cur :: clips', ?_, ?_, ?_, ?_⟩
      · simp only [groupGo, hd, hb, if_true]
        rw [show ([] : List (List Nat)) ++ [cur] = [cur] from rfl,
          groupGo_acc t rest f (i + 1) [i] [cur], hok]
        rfl
      · rw [List.flatten_cons, hflat]
        simp only [List.length_cons]
        rw [show List.range' i (rest.length + 1) = i :: List.range' (i + 1) rest.length from rfl]
        simp
      · intro c hc
        rcases List.mem_cons.mp hc with h | h
        · rw [h]; exact hcur
        · exact hne c h
      · rw [List.map_cons, hheads, boundaries, hbnd, if_pos hb]
        rfl
    · obtain ⟨clips', hok, hflat, hne, hheads⟩ := ih f (i + 1) (cur ++ [i]) hchain' (by simp)
      refine ⟨clips', ?_, ?_, hne, ?_⟩
      · simp only [groupGo, hd, hb, if_false]
        exact hok
      · rw [hflat]
        simp only [List.length_cons]
        rw [show List.range' i (rest.length + 1) = i :: List.range' (i + 1) rest.length from rfl]
        simp
      · rw [hheads, headD_append_left cur [i] hcur, boundaries, hbnd, if_neg hb]

/-- C7 counterexample: on two adjacent empty frames the reference distance
computation divides by zero (`diff / len(frame1_data)` with length 0), so
the scan crashes and produces no clips at all — the partition laws cannot
hold for every non-empty frame sequence. -/
theorem C7_segmenter_counterexample :
    group_frames_by_similarity [[], []] 0 = .error Err.zeroDivisionError ∧
    ∀ clips, group_frames_by_similarity [[], []] 0 ≠ .ok clips := by
  refine ⟨rfl, ?_⟩
  intro clips h
  rw [show group_frames_by_similarity [[], []] 0 = .error Err.zeroDivisionError from rfl] at h
  exact Except.noConfusion h

/-- C7 (corrected).  Segmenter partition laws, amended: provided no two
consecutive frames are both empty (otherwise the distance computation
divides by zero), the scan succeeds; a new clip starts exactly at the
frames whose distance to their predecessor exceeds the threshold; the
clips are non-empty and their concatenation is exactly the original index
sequence (hence contiguous and non-overlapping).  Scenario D: distances
2, 50, 3 against threshold 10 give the clips `[0, 1]` and `[2, 3]`. -/
theorem C7_segmenter_partition :
    (∀ (f0 : List Nat) (rest : List (List Nat)) (t : ℚ), 0 ≤ t →
      List.Chain' (fun a b => a ≠ [] ∨ b ≠ []) (f0 :: rest) →
      ∃ clips, group_frames_by_similarity (f0 :: rest) t = .ok clips ∧
        clips.flatten = List.range (rest.length + 1) ∧
        (∀ c ∈ clips, c ≠ []) ∧
        clips.map (fun c => c.headD 0) = 0 :: boundaries t f0 rest 1) ∧
    group_frames_by_similarity [[0], [2], [52], [55]] 10 = .ok [[0, 1], [2, 3]] := by
  constructor
  · intro f0 rest t _ hchain
    obtain ⟨clips, hok, hflat, hne, hheads⟩ := groupGo_spec t rest f0 1 [0] hchain (by simp)
    refine ⟨clips, hok, ?_, hne, hheads⟩
    rw [hflat, List.range_eq_range']
    rfl
  · simp only [group_frames_by_similarity, groupGo, calculate_frame_difference, absDiffSum,
      distGT]
    norm_num

/-- Witness for C7 at scenario D. -/
theorem C7_segmenter_partition_witness :
    ∃ clips, group_frames_by_similarity [[0], [2], [52], [55]] 10 = .ok clips ∧
      clips.flatten = List.range 4 ∧ (∀ c ∈ clips, c ≠ []) ∧
      clips.map (fun c => c.headD 0) = 0 :: boundaries 10 [0] [[2], [52], [55]] 1 :=
  C7_segmenter_partition.1 [0] [[2], [52], [55]] 10 (by norm_num) (by simp)

/-- C9 counterexample: the code reproduces precisely the behavior the claim
excludes — it indexes the empty sorted frame list, an `IndexError`, not a
dedicated `EmptyInput` failure. -/
theorem C9_empty_input_counterexample :
    group_frames_by_similarity [] 10 = .error Err.indexError ∧
    group_frames_by_similarity [] 10 ≠ .error Err.emptyInput := by
  refine ⟨rfl, ?_⟩
  intro h
  rw [show group_frames_by_similarity ([] : List (List Nat)) 10 =
      .error Err.indexError from rfl] at h
  exact Err.noConfusion (Except.error.inj h)

/-- C9 (corrected).  Segmenter edge cases, amended: an input of zero frames
fails with the `IndexError` of `frame_numbers[0]` on an empty list (there
is no `EmptyInput` error in the code); an input of exactly one frame
returns exactly one clip containing only that frame. -/
theorem C9_segmenter_edge_cases :
    (∀ t : ℚ, group_frames_by_similarity [] t = .error Err.indexError) ∧
    (∀ (f : List Nat) (t : ℚ), group_frames_by_similarity [f] t = .ok [[0]]) :=
  ⟨fun _ => rfl, fun _ _ => rfl⟩

/-! ## Bitmap addressing (`Frame Viewer.py` `bytes_to_image` and
`bytes_to_image_horizontal`; `Frame Grouper 2.py` `bytes_to_image_horizontal`).
The Python loops walk the byte positions in order and consume a byte only
while `byte_idx < len(byte_array)`, so pixel `(y, x)` reads the byte at the
position index given below, and every position at or past
`len(byte_array)` leaves its 8 pixels at 0 in the `np.zeros` grid.
`self.width = 128` and `self.height = 64` are hard-coded in both classes. -/

namespace FrameViewer

/-- `bytes_to_image` (vertical page format): pixel `(y, x)` comes from byte
`(y / 8) * 128 + x` (`page * width + x`), bit `y % 8` (LSB is the top pixel
of the page); a lit pixel is 255, and pixels whose byte position is past
the end of the buffer stay 0. -/
def bytes_to_image (ba : List Nat) (y x : Nat) : Nat :=
  if (y / 8) * 128 + x < ba.length then
    (if (ba.getD ((y / 8) * 128 + x) 0).testBit (y % 8) then 255 else 0)
  else 0

/-- `bytes_to_image_horizontal` (row-major format): pixel `(y, x)` comes
from byte `y * 16 + x / 8` (16 bytes per 128-pixel row), bit `7 - x % 8`
(MSB is the leftmost pixel). -/
def bytes_to_image_horizontal (ba : List Nat) (y x : Nat) : Nat :=
  if y * 16 + x / 8 < ba.length then
    (if (ba.getD (y * 16 + x / 8) 0).testBit (7 - x % 8) then 255 else 0)
  else 0

end FrameViewer

namespace FrameGrouper2

/-- `bytes_to_image_horizontal` from `Frame Grouper 2.py` — the same loop
as the Frame Viewer copy. -/
def bytes_to_image_horizontal (ba : List Nat) (y x : Nat) : Nat :=
  if y * 16 + x / 8 < ba.length then
    (if (ba.getD (y * 16 + x / 8) 0).testBit (7 - x % 8) then 255 else 0)
  else 0

end FrameGrouper2

/-- C8 counterexample: a 1-byte buffer — length 1, not `128*64/8 = 1024` —
is decoded by both addressing functions into a definite pixel grid (the
byte's pixels rendered, all remaining pixels left unset) instead of
failing with `BufferSizeMismatch`. -/
theorem C8_no_length_validation_counterexample :
    FrameViewer.bytes_to_image [255] 0 0 = 255 ∧
    FrameViewer.bytes_to_image [255] 8 0 = 0 ∧
    FrameViewer.bytes_to_image_horizontal [255] 0 0 = 255 ∧
    FrameViewer.bytes_to_image_horizontal [255] 0 8 = 0 ∧
    ([255] : List Nat).length ≠ 128 * 64 / 8 := by
  decide

/-- C8 (corrected).  The decoders never fail on a length mismatch: both are
total and silently recover — every pixel whose byte position is at or past
the end of the buffer is left unset (0) and extra bytes are ignored; the
two source copies of the horizontal decoder agree on every input. -/
theorem C8_no_length_validation :
    (∀ (ba : List Nat) (y x : Nat), ba.length ≤ (y / 8) * 128 + x →
      FrameViewer.bytes_to_image ba y x = 0) ∧
    (∀ (ba : List Nat) (y x : Nat), ba.length ≤ y * 16 + x / 8 →
      FrameViewer.bytes_to_image_horizontal ba y x = 0) ∧
    (∀ (ba : List Nat) (y x : Nat),
      FrameGrouper2.bytes_to_image_horizontal ba y x =
        FrameViewer.bytes_to_image_horizontal ba y x) := by
  refine ⟨?_, ?_, fun ba y x => rfl⟩
  · intro ba y x h
    unfold FrameViewer.bytes_to_image
    rw [if_neg (by omega)]
  · intro ba y x h
    unfold FrameViewer.bytes_to_image_horizontal
    rw [if_neg (by omega)]

/-- Witness for C8 on the empty buffer. -/
theorem C8_no_length_validation_witness :
    FrameViewer.bytes_to_image [] 0 0 = 0 ∧
    FrameViewer.bytes_to_image_horizontal [] 0 0 = 0 :=
  ⟨C8_no_length_validation.1 [] 0 0 (by decide),
    C8_no_length_validation.2.1 [] 0 0 (by decide)⟩

end FocusBot
